import Mathlib

/-!
Verification of the equivalent stressed volume computation of
`examples/specimen_weibull/specimen_weibull.ipynb`.

The notebook's only algorithmic content is the inline computation

  s_mises_max = max(np.max(s) for s in s_mises.values())
  v_eqv = 0.
  for eid, v in volume_result.values.items():
      s = s_mises[eid]
      v_i = v / len(s)
      v_eqv_e = np.sum((s / s_mises_max)**30 * v_i)
      v_eqv += v_eqv_e
  v_eqv *= 8

with the weibull modulus fixed to 30 and the symmetry factor to 8.  The design
document additionally specifies a validated procedure
`compute_equivalent_volume(stress_by_element, volume_by_element, weibull_modulus,
symmetry_factor)`; that procedure is not implemented under the repository's
sources, so it is modelled here from the specification's words.  Python dicts are
embedded as association lists with `Nat` keys; numeric values are embedded as
exact rationals.
-/

/-- Python-level errors the notebook code can raise: `ValueError` from `max` /
`np.max` on empty data, `KeyError` from a failed dict lookup. -/
inductive PyError where
  | valueError : PyError
  | keyError : PyError
deriving DecidableEq

instance {ε α : Type} [DecidableEq ε] [DecidableEq α] : DecidableEq (Except ε α) :=
  fun a b =>
    match a, b with
    | .ok x, .ok y => decidable_of_iff (x = y) (by simp)
    | .ok _, .error _ => isFalse (by simp)
    | .error _, .ok _ => isFalse (by simp)
    | .error e, .error f => decidable_of_iff (e = f) (by simp)

/-- `np.max` of a one-dimensional array: the maximum of its entries; raises
`ValueError` on an empty array. -/
def np_max : List ℚ → Except PyError ℚ
  | [] => .error .valueError
  | x :: xs => .ok (xs.foldl max x)

/-- The values `np.max(s)` produced by the generator
`(np.max(s) for s in s_mises.values())`, evaluated left to right; the first
`ValueError` from an empty stress array propagates. -/
def npMaxes : List (Nat × List ℚ) → Except PyError (List ℚ)
  | [] => .ok []
  | p :: rest =>
    match np_max p.2 with
    | .error e => .error e
    | .ok mx =>
      match npMaxes rest with
      | .error e => .error e
      | .ok ms => .ok (mx :: ms)

/-- `s_mises_max = max(np.max(s) for s in s_mises.values())`: the builtin `max`
raises `ValueError` when the dict is empty. -/
def s_mises_max (s_mises : List (Nat × List ℚ)) : Except PyError ℚ :=
  match npMaxes s_mises with
  | .error e => .error e
  | .ok [] => .error .valueError
  | .ok (m :: ms) => .ok (ms.foldl max m)

/-- The dict lookup `s_mises[eid]`: the value at the first matching key; raises
`KeyError` when `eid` is absent. -/
def dictLookup : List (Nat × List ℚ) → Nat → Except PyError (List ℚ)
  | [], _ => .error .keyError
  | p :: rest, k => if p.1 = k then .ok p.2 else dictLookup rest k

/-- The notebook's accumulation loop over `volume_result.values.items()`:
`s = s_mises[eid]`, `v_i = v / len(s)`,
`v_eqv_e = np.sum((s / s_mises_max)**30 * v_i)`, `v_eqv += v_eqv_e`. -/
def v_eqv_loop (s_mises : List (Nat × List ℚ)) (smax : ℚ) :
    List (Nat × ℚ) → ℚ → Except PyError ℚ
  | [], acc => .ok acc
  | p :: rest, acc =>
    match dictLookup s_mises p.1 with
    | .error e => .error e
    | .ok s =>
      v_eqv_loop s_mises smax rest
        (acc + (s.map (fun x => (x / smax) ^ 30 * (p.2 / (s.length : ℚ)))).sum)

/-- The notebook's `v_eqv`: loop total multiplied by 8 because only one eighth of
the specimen was modeled. -/
def v_eqv (s_mises : List (Nat × List ℚ)) (volume : List (Nat × ℚ)) :
    Except PyError ℚ :=
  match s_mises_max s_mises with
  | .error e => .error e
  | .ok smax =>
    match v_eqv_loop s_mises smax volume 0 with
    | .error e => .error e
    | .ok raw => .ok (raw * 8)

/-- Modelled from the spec: the two error kinds of the specified (but not
implemented under the sources) procedure `compute_equivalent_volume`. -/
inductive WeibullError where
  | emptyInput : WeibullError
  | domain : WeibullError
deriving DecidableEq

/-- The element ids (keys) of a mapping. -/
def keysOf {α : Type} (d : List (Nat × α)) : List Nat := d.map Prod.fst

/-- The two mappings have identical key sets. -/
def sameKeys (stress : List (Nat × List ℚ)) (volume : List (Nat × ℚ)) : Prop :=
  (∀ k ∈ keysOf stress, k ∈ keysOf volume) ∧
  (∀ k ∈ keysOf volume, k ∈ keysOf stress)

instance (stress : List (Nat × List ℚ)) (volume : List (Nat × ℚ)) :
    Decidable (sameKeys stress volume) := by
  unfold sameKeys
  infer_instance

/-- All stress values of all integration points of all elements. -/
def allStresses (stress : List (Nat × List ℚ)) : List ℚ :=
  (stress.map Prod.snd).flatten

/-- The global maximum stress, as a fold of `max` with base `0`; it agrees with
the true maximum whenever some stress is non-negative, in particular on valid
(all-non-negative) inputs. -/
def sMax (stress : List (Nat × List ℚ)) : ℚ :=
  (allStresses stress).foldr max 0

/-- The stress sequence `s_e` of element `k` (default `[]` for an absent key;
only ever used at present keys). -/
def stressOf : List (Nat × List ℚ) → Nat → List ℚ
  | [], _ => []
  | p :: rest, k => if p.1 = k then p.2 else stressOf rest k

/-- The volume `V_e` of element `k` (default `0` for an absent key; only ever
used at present keys). -/
def volOf : List (Nat × ℚ) → Nat → ℚ
  | [], _ => 0
  | p :: rest, k => if p.1 = k then p.2 else volOf rest k

/-- Elemental contribution `c_e = sum over i of (s_e[i] / s_max)^m * v_i` with the
per-point volume share `v_i = V_e / n_e`. -/
def elemContrib (m : Nat) (smax : ℚ) (s : List ℚ) (V : ℚ) : ℚ :=
  (s.map (fun x => (x / smax) ^ m * (V / (s.length : ℚ)))).sum

/-- `V_eqv_raw = sum over elements e of c_e`, the unscaled equivalent volume. -/
def v_eqv_raw (stress : List (Nat × List ℚ)) (volume : List (Nat × ℚ))
    (m : Nat) : ℚ :=
  (volume.map (fun p => elemContrib m (sMax stress) (stressOf stress p.1) p.2)).sum

/-- The id of the first element whose stress sequence contains the value `smax`
(default `0` when none does). -/
def firstEidWith (smax : ℚ) : List (Nat × List ℚ) → Nat
  | [] => 0
  | p :: rest => if smax ∈ p.2 then p.1 else firstEidWith smax rest

/-- The element id at which the maximum stress occurred: the first element whose
stress sequence contains the global maximum. -/
def criticalEid (stress : List (Nat × List ℚ)) : Nat :=
  firstEidWith (sMax stress) stress

/-- Modelled from the spec: `compute_equivalent_volume(stress_by_element,
volume_by_element, weibull_modulus, symmetry_factor) -> (v_eqv, s_max,
critical_element_id)`.  The procedure is specified in the design document but not
implemented under the repository's sources (the notebook inlines the computation
with modulus 30 and symmetry factor 8 and performs no validation).  Step 1 fails
with `EmptyInputError` on empty or key-mismatched mappings; then `DomainError` is
raised for a non-positive modulus, a negative stress or volume value, an element
with zero integration points, or a non-positive maximum stress; otherwise the
result is `(V_eqv_raw * symmetry_factor, s_max, critical element id)`.  The
weibull modulus is modelled as a positive integer exponent and values are exact
rationals, so non-finite inputs do not arise. -/
def compute_equivalent_volume (stress : List (Nat × List ℚ))
    (volume : List (Nat × ℚ)) (m : Nat) (symfac : ℚ) :
    Except WeibullError (ℚ × ℚ × Nat) :=
  if stress = [] ∨ volume = [] ∨ ¬ sameKeys stress volume then
    .error .emptyInput
  else if m = 0 ∨ (∃ p ∈ stress, ∃ x ∈ p.2, x < 0) ∨ (∃ p ∈ volume, p.2 < 0) ∨
      (∃ p ∈ stress, p.2 = []) ∨ sMax stress ≤ 0 then
    .error .domain
  else
    .ok (v_eqv_raw stress volume m * symfac, sMax stress, criticalEid stress)

/-- The stress mapping with every stress value multiplied by `k` (used to state
scale invariance). -/
def scaleStress (k : ℚ) (stress : List (Nat × List ℚ)) : List (Nat × List ℚ) :=
  stress.map (fun p => (p.1, p.2.map (fun x => k * x)))

/-- The specification's closed formula, written from the claim's words: the
symmetry factor times the sum, over the element-id set, of the elemental
contribution `sum over i of (s_e[i]/s_max)^m * (V_e/n_e)`. -/
def specVeqv (stress : List (Nat × List ℚ)) (volume : List (Nat × ℚ)) (m : Nat)
    (symfac : ℚ) : ℚ :=
  symfac * (keysOf stress).toFinset.sum (fun k =>
    elemContrib m (sMax stress) (stressOf stress k) (volOf volume k))

/-- A valid input in the sense of the specification: non-empty mappings with
identical, duplicate-free key sets, every element with at least one integration
point, non-negative stresses with positive maximum, positive volumes, positive
modulus. -/
structure ValidInput (stress : List (Nat × List ℚ)) (volume : List (Nat × ℚ))
    (m : Nat) : Prop where
  stress_ne : stress ≠ []
  volume_ne : volume ≠ []
  keys_eq : sameKeys stress volume
  stress_nodup : (keysOf stress).Nodup
  volume_nodup : (keysOf volume).Nodup
  stress_nonneg : ∀ p ∈ stress, ∀ x ∈ p.2, (0 : ℚ) ≤ x
  npts_pos : ∀ p ∈ stress, p.2 ≠ []
  smax_pos : 0 < sMax stress
  volume_pos : ∀ p ∈ volume, (0 : ℚ) < p.2
  m_pos : 0 < m

/-! ### Basic properties of the fold-based maximum and the lookups -/

theorem le_foldr_max {l : List ℚ} {x : ℚ} (hx : x ∈ l) (a : ℚ) :
    x ≤ l.foldr max a := by
  induction l with
  | nil => cases hx
  | cons y t ih =>
    rcases List.mem_cons.mp hx with h | h
    · subst h; exact le_max_left _ _
    · exact le_trans (ih h) (le_max_right _ _)

theorem init_le_foldr_max (l : List ℚ) (a : ℚ) : a ≤ l.foldr max a := by
  induction l with
  | nil => simp
  | cons y t ih => exact le_trans ih (le_max_right _ _)

theorem foldr_max_mem (l : List ℚ) (a : ℚ) : l.foldr max a ∈ a :: l := by
  induction l with
  | nil => simp
  | cons y t ih =>
    simp only [List.foldr_cons]
    rcases max_choice y (t.foldr max a) with h | h
    · rw [h]
      exact List.mem_cons_of_mem _ (List.mem_cons_self _ _)
    · rw [h]
      rcases List.mem_cons.mp ih with h' | h'
      · rw [h']
        exact List.mem_cons_self _ _
      · exact List.mem_cons_of_mem _ (List.mem_cons_of_mem _ h')

theorem le_sMax {stress : List (Nat × List ℚ)} {x : ℚ}
    (hx : x ∈ allStresses stress) : x ≤ sMax stress :=
  le_foldr_max hx 0

theorem sMax_nonneg (stress : List (Nat × List ℚ)) : 0 ≤ sMax stress :=
  init_le_foldr_max _ 0

theorem sMax_mem_of_pos {stress : List (Nat × List ℚ)} (h : 0 < sMax stress) :
    sMax stress ∈ allStresses stress := by
  rcases List.mem_cons.mp (foldr_max_mem (allStresses stress) 0) with h0 | hm
  · exact absurd h0 (ne_of_gt h)
  · exact hm

theorem mem_allStresses {stress : List (Nat × List ℚ)} {p : Nat × List ℚ}
    {x : ℚ} (hp : p ∈ stress) (hx : x ∈ p.2) : x ∈ allStresses stress := by
  unfold allStresses
  exact List.mem_flatten.mpr ⟨p.2, List.mem_map_of_mem Prod.snd hp, hx⟩

theorem stressOf_mem {stress : List (Nat × List ℚ)} {k : Nat}
    (h : k ∈ keysOf stress) : (k, stressOf stress k) ∈ stress := by
  induction stress with
  | nil => simp [keysOf] at h
  | cons p rest ih =>
    by_cases hk : p.1 = k
    · simp only [stressOf, hk, if_pos]
      exact List.mem_cons.mpr (Or.inl (by rw [← hk]))
    · have h' : k ∈ keysOf rest := by
        rcases List.mem_cons.mp h with h0 | h0
        · exact absurd h0.symm hk
        · exact h0
      simp only [stressOf, hk, if_neg, ite_false]
      exact List.mem_cons_of_mem _ (ih h')

theorem volOf_eq_of_mem {volume : List (Nat × ℚ)} {k : Nat} {v : ℚ}
    (hnd : (keysOf volume).Nodup) (h : (k, v) ∈ volume) : volOf volume k = v := by
  induction volume with
  | nil => cases h
  | cons p rest ih =>
    rcases List.mem_cons.mp h with h0 | h0
    · rw [← h0]
      simp [volOf]
    · have hk : p.1 ≠ k := by
        intro hkk
        have : k ∈ keysOf rest := by
          simpa [keysOf] using List.mem_map_of_mem Prod.fst h0
        have hnotin : p.1 ∉ keysOf rest := (List.nodup_cons.mp hnd).1
        exact hnotin (hkk ▸ this)
      have hnd' : (keysOf rest).Nodup := (List.nodup_cons.mp hnd).2
      simp only [volOf, hk, ite_false]
      exact ih hnd' h0

theorem stressOf_eq_of_mem {stress : List (Nat × List ℚ)} {k : Nat} {s : List ℚ}
    (hnd : (keysOf stress).Nodup) (h : (k, s) ∈ stress) : stressOf stress k = s := by
  induction stress with
  | nil => cases h
  | cons p rest ih =>
    rcases List.mem_cons.mp h with h0 | h0
    · rw [← h0]
      simp [stressOf]
    · have hk : p.1 ≠ k := by
        intro hkk
        have : k ∈ keysOf rest := by
          simpa [keysOf] using List.mem_map_of_mem Prod.fst h0
        have hnotin : p.1 ∉ keysOf rest := (List.nodup_cons.mp hnd).1
        exact hnotin (hkk ▸ this)
      have hnd' : (keysOf rest).Nodup := (List.nodup_cons.mp hnd).2
      simp only [stressOf, hk, ite_false]
      exact ih hnd' h0

theorem sum_map_const (s : List ℚ) (c : ℚ) :
    (s.map (fun _ => c)).sum = (s.length : ℚ) * c := by
  induction s with
  | nil => simp
  | cons x t ih =>
    simp only [List.map_cons, List.sum_cons, ih, List.length_cons]
    push_cast
    ring

theorem validInput_not_empty {stress : List (Nat × List ℚ)}
    {volume : List (Nat × ℚ)} {m : Nat} (h : ValidInput stress volume m) :
    ¬ (stress = [] ∨ volume = [] ∨ ¬ sameKeys stress volume) := by
  push_neg
  exact ⟨h.stress_ne, h.volume_ne, h.keys_eq⟩

theorem validInput_not_domain {stress : List (Nat × List ℚ)}
    {volume : List (Nat × ℚ)} {m : Nat} (h : ValidInput stress volume m) :
    ¬ (m = 0 ∨ (∃ p ∈ stress, ∃ x ∈ p.2, x < 0) ∨ (∃ p ∈ volume, p.2 < 0) ∨
      (∃ p ∈ stress, p.2 = []) ∨ sMax stress ≤ 0) := by
  push_neg
  refine ⟨by have := h.m_pos; omega, ?_, ?_, ?_, h.smax_pos⟩
  · exact fun p hp x hx => h.stress_nonneg p hp x hx
  · exact fun p hp => le_of_lt (h.volume_pos p hp)
  · exact fun p hp => h.npts_pos p hp

/-- On a valid input the computation succeeds with the stated components. -/
theorem compute_eq_ok {stress : List (Nat × List ℚ)} {volume : List (Nat × ℚ)}
    {m : Nat} (symfac : ℚ) (h : ValidInput stress volume m) :
    compute_equivalent_volume stress volume m symfac =
      .ok (v_eqv_raw stress volume m * symfac, sMax stress, criticalEid stress) := by
  unfold compute_equivalent_volume
  rw [if_neg (validInput_not_empty h), if_neg (validInput_not_domain h)]

/-! ### Claim theorems: error behaviour and concrete scenarios -/

/-- C3: the computation raises `EmptyInputError`, and only `EmptyInputError`,
exactly when either input mapping is empty or the key set of the stress mapping
differs from the key set of the volume mapping; no (partial) result is returned
in that case. -/
theorem C3_emptyInput_iff (stress : List (Nat × List ℚ)) (volume : List (Nat × ℚ))
    (m : Nat) (symfac : ℚ) :
    compute_equivalent_volume stress volume m symfac =
        Except.error WeibullError.emptyInput ↔
      (stress = [] ∨ volume = [] ∨ ¬ sameKeys stress volume) := by
  unfold compute_equivalent_volume
  split
  · next h => simpa using h
  · next h =>
    split
    · exact iff_of_false (by simp) h
    · exact iff_of_false (by simp) h

/-- C9: on the concrete two-element input (element 1 with stresses [10, 20] and
volume 4, element 2 with stress [20] and volume 3) the maximum stress is 20, the
raw equivalent volume at modulus 1 is 6, and with symmetry factor 8 the result is
48 (at the critical element id 1). -/
theorem C9_concrete_scenario :
    sMax [(1, [(10 : ℚ), 20]), (2, [(20 : ℚ)])] = 20 ∧
    v_eqv_raw [(1, [(10 : ℚ), 20]), (2, [(20 : ℚ)])]
      [(1, (4 : ℚ)), (2, (3 : ℚ))] 1 = 6 ∧
    compute_equivalent_volume [(1, [(10 : ℚ), 20]), (2, [(20 : ℚ)])]
      [(1, (4 : ℚ)), (2, (3 : ℚ))] 1 8 = .ok (48, 20, 1) := by
  refine ⟨?_, ?_, ?_⟩
  · norm_num [sMax, allStresses, max_def]
  · norm_num [v_eqv_raw, elemContrib, stressOf, sMax, allStresses, max_def]
  · norm_num [compute_equivalent_volume, sameKeys, keysOf, v_eqv_raw, elemContrib,
      stressOf, criticalEid, firstEidWith, sMax, allStresses, max_def,
      List.cons_ne_nil]

/-- C4 counterexample: the input `stress = {1 ↦ [-1]}`, `volume = {2 ↦ 1}`,
`m = 1`, `symmetry_factor = 1` contains a negative stress value, yet the
computation raises `EmptyInputError` (the key sets differ), not `DomainError` —
refuting "for every input containing at least one negative stress value,
DomainError is raised" and the claimed exactness. -/
theorem C4_counterexample :
    ((-1 : ℚ) ∈ [(-1 : ℚ)] ∧ (-1 : ℚ) < 0) ∧
    compute_equivalent_volume [(1, [(-1 : ℚ)])] [(2, (1 : ℚ))] 1 1 =
      .error .emptyInput ∧
    compute_equivalent_volume [(1, [(-1 : ℚ)])] [(2, (1 : ℚ))] 1 1 ≠
      .error .domain := by
  have heq : compute_equivalent_volume [(1, [(-1 : ℚ)])] [(2, (1 : ℚ))] 1 1 =
      .error .emptyInput := by
    norm_num [compute_equivalent_volume, sameKeys, keysOf]
  refine ⟨⟨by simp, by norm_num⟩, heq, ?_⟩
  rw [heq]
  decide

/-- C4 (amended): provided both mappings are non-empty and their key sets
coincide, the computation raises `DomainError` exactly when some stress or volume
value is negative, or the maximum stress is non-positive, or the weibull modulus
is non-positive, or some element has zero integration points; when the structural
(emptiness / key-set) check fails, `EmptyInputError` takes precedence even over a
negative stress value. -/
theorem C4_domain_iff (stress : List (Nat × List ℚ)) (volume : List (Nat × ℚ))
    (m : Nat) (symfac : ℚ) (hs : stress ≠ []) (hv : volume ≠ [])
    (hk : sameKeys stress volume) :
    compute_equivalent_volume stress volume m symfac =
        Except.error WeibullError.domain ↔
      (m = 0 ∨ (∃ p ∈ stress, ∃ x ∈ p.2, x < 0) ∨ (∃ p ∈ volume, p.2 < 0) ∨
        (∃ p ∈ stress, p.2 = []) ∨ sMax stress ≤ 0) := by
  unfold compute_equivalent_volume
  rw [if_neg (by push_neg; exact ⟨hs, hv, hk⟩)]
  split
  · next h => simpa using h
  · next h => exact iff_of_false (by simp) h

/-- Witness for C4 (amended) at a concrete input satisfying its hypotheses. -/
theorem C4_domain_iff_witness :
    compute_equivalent_volume [(1, [(-1 : ℚ)])] [(1, (2 : ℚ))] 1 1 =
        Except.error WeibullError.domain ↔
      ((1 : Nat) = 0 ∨
        (∃ p ∈ [((1 : Nat), [(-1 : ℚ)])], ∃ x ∈ p.2, x < 0) ∨
        (∃ p ∈ [((1 : Nat), (2 : ℚ))], p.2 < 0) ∨
        (∃ p ∈ [((1 : Nat), [(-1 : ℚ)])], p.2 = ([] : List ℚ)) ∨
        sMax [(1, [(-1 : ℚ)])] ≤ 0) :=
  C4_domain_iff _ _ _ _ (by simp) (by simp) (by simp [sameKeys, keysOf])

/-! ### Bounds on the elemental contribution -/

theorem elemContrib_nonneg {m : Nat} {smax V : ℚ} {s : List ℚ}
    (hs : ∀ x ∈ s, 0 ≤ x) (hsm : 0 ≤ smax) (hV : 0 ≤ V) :
    0 ≤ elemContrib m smax s V := by
  unfold elemContrib
  apply List.sum_nonneg
  intro y hy
  rcases List.mem_map.mp hy with ⟨x, hx, rfl⟩
  have h1 : 0 ≤ x / smax := div_nonneg (hs x hx) hsm
  have h2 : 0 ≤ V / (s.length : ℚ) := div_nonneg hV (Nat.cast_nonneg _)
  exact mul_nonneg (pow_nonneg h1 m) h2

theorem elemContrib_le {m : Nat} {smax V : ℚ} {s : List ℚ}
    (hs : ∀ x ∈ s, 0 ≤ x ∧ x ≤ smax) (hsm : 0 < smax) (hV : 0 ≤ V)
    (hne : s ≠ []) : elemContrib m smax s V ≤ V := by
  unfold elemContrib
  have hlen : (0 : ℚ) < (s.length : ℚ) := by
    exact_mod_cast List.length_pos.mpr hne
  calc (s.map (fun x => (x / smax) ^ m * (V / (s.length : ℚ)))).sum
      ≤ (s.map (fun _ => V / (s.length : ℚ))).sum := by
        apply List.sum_le_sum
        intro x hx
        have h1 : (x / smax) ^ m ≤ 1 :=
          pow_le_one₀ (div_nonneg (hs x hx).1 hsm.le)
            ((div_le_one hsm).mpr (hs x hx).2)
        have h2 : 0 ≤ V / (s.length : ℚ) := div_nonneg hV hlen.le
        calc (x / smax) ^ m * (V / (s.length : ℚ))
            ≤ 1 * (V / (s.length : ℚ)) := mul_le_mul_of_nonneg_right h1 h2
          _ = V / (s.length : ℚ) := one_mul _
    _ = V := by
        rw [sum_map_const]
        exact mul_div_cancel₀ V (ne_of_gt hlen)

theorem stressOf_facts {stress : List (Nat × List ℚ)} {volume : List (Nat × ℚ)}
    {m : Nat} (h : ValidInput stress volume m) {p : Nat × ℚ} (hp : p ∈ volume) :
    (p.1, stressOf stress p.1) ∈ stress ∧ stressOf stress p.1 ≠ [] ∧
      ∀ x ∈ stressOf stress p.1, 0 ≤ x ∧ x ≤ sMax stress := by
  have hkey : p.1 ∈ keysOf stress :=
    h.keys_eq.2 p.1 (List.mem_map_of_mem Prod.fst hp)
  have hmem := stressOf_mem hkey
  refine ⟨hmem, h.npts_pos _ hmem, fun x hx => ⟨h.stress_nonneg _ hmem x hx, ?_⟩⟩
  exact le_sMax (mem_allStresses hmem hx)

/-- C5: for every valid input the unscaled result satisfies
`0 ≤ V_eqv_raw ≤ sum of all element volumes`. -/
theorem C5_raw_bounds (stress : List (Nat × List ℚ)) (volume : List (Nat × ℚ))
    (m : Nat) (h : ValidInput stress volume m) :
    0 ≤ v_eqv_raw stress volume m ∧
      v_eqv_raw stress volume m ≤ (volume.map Prod.snd).sum := by
  constructor
  · unfold v_eqv_raw
    apply List.sum_nonneg
    intro y hy
    rcases List.mem_map.mp hy with ⟨p, hp, rfl⟩
    obtain ⟨hmem, -, hfacts⟩ := stressOf_facts h hp
    exact elemContrib_nonneg (fun x hx => (hfacts x hx).1) (sMax_nonneg stress)
      (h.volume_pos p hp).le
  · unfold v_eqv_raw
    apply List.sum_le_sum
    intro p hp
    obtain ⟨hmem, hne, hfacts⟩ := stressOf_facts h hp
    exact elemContrib_le hfacts h.smax_pos (h.volume_pos p hp).le hne

/-- A concrete valid input used to witness the hypothesised claim theorems. -/
theorem exampleValid :
    ValidInput [(1, [(10 : ℚ), 20]), (2, [(20 : ℚ)])]
      [(1, (4 : ℚ)), (2, (3 : ℚ))] 1 := by
  refine ⟨by simp, by simp, ⟨by simp [keysOf], by simp [keysOf]⟩,
    by simp [keysOf], by simp [keysOf], ?_, ?_, ?_, ?_, Nat.one_pos⟩
  · intro p hp x hx
    rcases List.mem_cons.mp hp with h0 | h0
    · subst h0
      rcases List.mem_cons.mp hx with h1 | h1
      · rw [h1]; norm_num
      · simp only [List.mem_singleton] at h1
        rw [h1]; norm_num
    · simp only [List.mem_singleton] at h0
      subst h0
      simp only [List.mem_singleton] at hx
      rw [hx]; norm_num
  · intro p hp
    rcases List.mem_cons.mp hp with h0 | h0
    · subst h0; simp
    · simp only [List.mem_singleton] at h0
      subst h0; simp
  · norm_num [sMax, allStresses, max_def]
  · intro p hp
    rcases List.mem_cons.mp hp with h0 | h0
    · subst h0; norm_num
    · simp only [List.mem_singleton] at h0
      subst h0; norm_num

/-- Witness for C5 at the concrete valid input. -/
theorem C5_raw_bounds_witness :
    0 ≤ v_eqv_raw [(1, [(10 : ℚ), 20]), (2, [(20 : ℚ)])]
        [(1, (4 : ℚ)), (2, (3 : ℚ))] 1 ∧
      v_eqv_raw [(1, [(10 : ℚ), 20]), (2, [(20 : ℚ)])]
          [(1, (4 : ℚ)), (2, (3 : ℚ))] 1 ≤
        (([(1, (4 : ℚ)), (2, (3 : ℚ))]).map Prod.snd).sum :=
  C5_raw_bounds _ _ _ exampleValid

/-- C8: with stresses, volumes and symmetry factor fixed, the raw result is
non-increasing in the weibull modulus: for positive moduli `m1 ≤ m2` the result
at `m2` is at most the result at `m1`. -/
theorem C8_monotone_in_modulus (stress : List (Nat × List ℚ))
    (volume : List (Nat × ℚ)) (m1 m2 : Nat) (h : ValidInput stress volume m1)
    (hm : m1 ≤ m2) :
    v_eqv_raw stress volume m2 ≤ v_eqv_raw stress volume m1 := by
  unfold v_eqv_raw
  apply List.sum_le_sum
  intro p hp
  obtain ⟨hmem, hne, hfacts⟩ := stressOf_facts h hp
  unfold elemContrib
  apply List.sum_le_sum
  intro x hx
  have h0 : 0 ≤ x / sMax stress := div_nonneg (hfacts x hx).1 h.smax_pos.le
  have h1 : x / sMax stress ≤ 1 := (div_le_one h.smax_pos).mpr (hfacts x hx).2
  have h2 : 0 ≤ p.2 / ((stressOf stress p.1).length : ℚ) :=
    div_nonneg (h.volume_pos p hp).le (Nat.cast_nonneg _)
  exact mul_le_mul_of_nonneg_right (pow_le_pow_of_le_one h0 h1 hm) h2

/-- Witness for C8 at the concrete valid input with moduli 1 ≤ 2. -/
theorem C8_monotone_in_modulus_witness :
    v_eqv_raw [(1, [(10 : ℚ), 20]), (2, [(20 : ℚ)])]
        [(1, (4 : ℚ)), (2, (3 : ℚ))] 2 ≤
      v_eqv_raw [(1, [(10 : ℚ), 20]), (2, [(20 : ℚ)])]
        [(1, (4 : ℚ)), (2, (3 : ℚ))] 1 :=
  C8_monotone_in_modulus _ _ _ _ exampleValid (by omega)

/-! ### Constant-stress inputs -/

theorem allStresses_const {stress : List (Nat × List ℚ)} {c : ℚ}
    (hc : ∀ p ∈ stress, ∀ x ∈ p.2, x = c) :
    ∀ x ∈ allStresses stress, x = c := by
  intro x hx
  rcases List.mem_flatten.mp hx with ⟨s, hs, hxs⟩
  rcases List.mem_map.mp hs with ⟨p, hp, rfl⟩
  exact hc p hp x hxs

theorem sMax_const {stress : List (Nat × List ℚ)} {volume : List (Nat × ℚ)}
    {m : Nat} (h : ValidInput stress volume m) {c : ℚ}
    (hc : ∀ p ∈ stress, ∀ x ∈ p.2, x = c) : sMax stress = c :=
  allStresses_const hc _ (sMax_mem_of_pos h.smax_pos)

theorem elemContrib_const {m : Nat} {c V : ℚ} {s : List ℚ} (hcne : c ≠ 0)
    (hs : ∀ x ∈ s, x = c) (hne : s ≠ []) : elemContrib m c s V = V := by
  unfold elemContrib
  have hmap : s.map (fun x => (x / c) ^ m * (V / (s.length : ℚ))) =
      s.map (fun _ => V / (s.length : ℚ)) := by
    apply List.map_congr_left
    intro x hx
    rw [hs x hx, div_self hcne, one_pow, one_mul]
  rw [hmap, sum_map_const]
  have hlen : ((s.length : ℚ)) ≠ 0 :=
    Nat.cast_ne_zero.mpr (Nat.pos_iff_ne_zero.mp (List.length_pos.mpr hne))
  exact mul_div_cancel₀ V hlen

/-- C7 counterexample: for the valid all-constant-stress input
`stress = {1 ↦ [5]}`, `volume = {1 ↦ 2}`, `m = 1`, `symmetry_factor = 8`,
the raw value is 2 — the plain volume sum — and not
`symmetry_factor * sum(volumes) = 16` as claimed; only the scaled result equals
16. -/
theorem C7_counterexample :
    (∀ p ∈ [((1 : Nat), [(5 : ℚ)])], ∀ x ∈ p.2, x = 5) ∧
    compute_equivalent_volume [(1, [(5 : ℚ)])] [(1, (2 : ℚ))] 1 8 =
      .ok (16, 5, 1) ∧
    v_eqv_raw [(1, [(5 : ℚ)])] [(1, (2 : ℚ))] 1 = 2 ∧
    v_eqv_raw [(1, [(5 : ℚ)])] [(1, (2 : ℚ))] 1 ≠
      8 * (([((1 : Nat), (2 : ℚ))]).map Prod.snd).sum := by
  refine ⟨by simp, ?_, ?_, ?_⟩ <;>
    norm_num [compute_equivalent_volume, sameKeys, keysOf, v_eqv_raw, elemContrib,
      stressOf, criticalEid, firstEidWith, sMax, allStresses, max_def,
      List.cons_ne_nil]

/-- C7 (amended): if every stress value equals the same constant then `V_eqv_raw`
equals the plain sum of the element volumes, and the returned (scaled) result
`V_eqv` equals `symmetry_factor` times that sum. -/
theorem C7_const_stress (stress : List (Nat × List ℚ)) (volume : List (Nat × ℚ))
    (m : Nat) (symfac : ℚ) (c : ℚ) (h : ValidInput stress volume m)
    (hc : ∀ p ∈ stress, ∀ x ∈ p.2, x = c) :
    v_eqv_raw stress volume m = (volume.map Prod.snd).sum ∧
    compute_equivalent_volume stress volume m symfac =
      .ok ((volume.map Prod.snd).sum * symfac, sMax stress, criticalEid stress) := by
  have hsc : sMax stress = c := sMax_const h hc
  have hcne : c ≠ 0 := by rw [← hsc]; exact ne_of_gt h.smax_pos
  have hraw : v_eqv_raw stress volume m = (volume.map Prod.snd).sum := by
    unfold v_eqv_raw
    have hmap : volume.map
        (fun p => elemContrib m (sMax stress) (stressOf stress p.1) p.2) =
        volume.map Prod.snd := by
      apply List.map_congr_left
      intro p hp
      obtain ⟨hmem, hne, -⟩ := stressOf_facts h hp
      rw [hsc]
      exact elemContrib_const hcne (fun x hx => hc _ hmem x hx) hne
    rw [hmap]
  exact ⟨hraw, by rw [compute_eq_ok symfac h, hraw]⟩

/-- Witness for C7 (amended) at a concrete constant-stress valid input. -/
theorem C7_const_stress_witness :
    v_eqv_raw [(1, [(5 : ℚ)])] [(1, (2 : ℚ))] 1 =
      (([((1 : Nat), (2 : ℚ))]).map Prod.snd).sum ∧
    compute_equivalent_volume [(1, [(5 : ℚ)])] [(1, (2 : ℚ))] 1 8 =
      .ok ((([((1 : Nat), (2 : ℚ))]).map Prod.snd).sum * 8,
        sMax [(1, [(5 : ℚ)])], criticalEid [(1, [(5 : ℚ)])]) :=
  C7_const_stress _ _ _ _ 5
    ⟨by simp, by simp, ⟨by simp [keysOf], by simp [keysOf]⟩, by simp [keysOf],
      by simp [keysOf],
      by intro p hp x hx; simp only [List.mem_singleton] at hp; subst hp;
         simp only [List.mem_singleton] at hx; rw [hx]; norm_num,
      by intro p hp; simp only [List.mem_singleton] at hp; subst hp; simp,
      by norm_num [sMax, allStresses, max_def],
      by intro p hp; simp only [List.mem_singleton] at hp; subst hp; norm_num,
      Nat.one_pos⟩
    (by intro p hp x hx; simp only [List.mem_singleton] at hp; subst hp;
        simpa using hx)

/-! ### Scale invariance -/

theorem keysOf_scaleStress (k : ℚ) (stress : List (Nat × List ℚ)) :
    keysOf (scaleStress k stress) = keysOf stress := by
  unfold keysOf scaleStress
  rw [List.map_map]
  rfl

theorem allStresses_scaleStress (k : ℚ) (stress : List (Nat × List ℚ)) :
    allStresses (scaleStress k stress) =
      (allStresses stress).map (fun x => k * x) := by
  induction stress with
  | nil => rfl
  | cons p rest ih =>
    simp only [scaleStress, allStresses, List.map_cons, List.flatten_cons,
      List.map_append] at ih ⊢
    rw [ih]

theorem foldr_max_map_mul {k : ℚ} (hk : 0 ≤ k) (l : List ℚ) :
    (l.map (fun x => k * x)).foldr max 0 = k * l.foldr max 0 := by
  induction l with
  | nil => simp
  | cons y t ih =>
    simp only [List.map_cons, List.foldr_cons, ih]
    rw [mul_max_of_nonneg _ _ hk]

theorem sMax_scaleStress {k : ℚ} (hk : 0 ≤ k) (stress : List (Nat × List ℚ)) :
    sMax (scaleStress k stress) = k * sMax stress := by
  unfold sMax
  rw [allStresses_scaleStress, foldr_max_map_mul hk]

theorem stressOf_scaleStress (k : ℚ) (stress : List (Nat × List ℚ)) (eid : Nat) :
    stressOf (scaleStress k stress) eid =
      (stressOf stress eid).map (fun x => k * x) := by
  induction stress with
  | nil => rfl
  | cons p rest ih =>
    by_cases hp : p.1 = eid
    · simp [scaleStress, stressOf, hp]
    · simpa [scaleStress, stressOf, hp] using ih

theorem validInput_scaleStress {stress : List (Nat × List ℚ)}
    {volume : List (Nat × ℚ)} {m : Nat} (h : ValidInput stress volume m)
    {k : ℚ} (hk : 0 < k) : ValidInput (scaleStress k stress) volume m := by
  refine ⟨?_, h.volume_ne, ?_, ?_, h.volume_nodup, ?_, ?_, ?_, h.volume_pos,
    h.m_pos⟩
  · simpa [scaleStress, List.map_eq_nil_iff] using h.stress_ne
  · unfold sameKeys
    rw [keysOf_scaleStress]
    exact h.keys_eq
  · rw [keysOf_scaleStress]
    exact h.stress_nodup
  · intro p hp x hx
    rcases List.mem_map.mp hp with ⟨q, hq, rfl⟩
    rcases List.mem_map.mp hx with ⟨y, hy, rfl⟩
    exact mul_nonneg hk.le (h.stress_nonneg q hq y hy)
  · intro p hp
    rcases List.mem_map.mp hp with ⟨q, hq, rfl⟩
    simpa [List.map_eq_nil_iff] using h.npts_pos q hq
  · rw [sMax_scaleStress hk.le]
    exact mul_pos hk h.smax_pos

theorem v_eqv_raw_scaleStress {k : ℚ} (hk : 0 < k)
    (stress : List (Nat × List ℚ)) (volume : List (Nat × ℚ)) (m : Nat) :
    v_eqv_raw (scaleStress k stress) volume m = v_eqv_raw stress volume m := by
  unfold v_eqv_raw
  apply congrArg List.sum
  apply List.map_congr_left
  intro p hp
  rw [sMax_scaleStress hk.le, stressOf_scaleStress]
  unfold elemContrib
  rw [List.map_map, List.length_map]
  apply congrArg List.sum
  apply List.map_congr_left
  intro x hx
  simp only [Function.comp_apply]
  rw [mul_div_mul_left x (sMax stress) (ne_of_gt hk)]

/-- C6: multiplying every stress value by a positive constant `k` leaves the
returned equivalent volume unchanged: both runs succeed and return the same
first component `V_eqv_raw * symmetry_factor`. -/
theorem C6_scale_invariance (stress : List (Nat × List ℚ))
    (volume : List (Nat × ℚ)) (m : Nat) (symfac k : ℚ)
    (h : ValidInput stress volume m) (hk : 0 < k) :
    compute_equivalent_volume (scaleStress k stress) volume m symfac =
      .ok (v_eqv_raw stress volume m * symfac, sMax (scaleStress k stress),
        criticalEid (scaleStress k stress)) ∧
    compute_equivalent_volume stress volume m symfac =
      .ok (v_eqv_raw stress volume m * symfac, sMax stress,
        criticalEid stress) := by
  constructor
  · rw [compute_eq_ok symfac (validInput_scaleStress h hk),
      v_eqv_raw_scaleStress hk]
  · exact compute_eq_ok symfac h

/-- Witness for C6 at the concrete valid input with `k = 3`. -/
theorem C6_scale_invariance_witness :
    compute_equivalent_volume
        (scaleStress 3 [(1, [(10 : ℚ), 20]), (2, [(20 : ℚ)])])
        [(1, (4 : ℚ)), (2, (3 : ℚ))] 1 8 =
      .ok (v_eqv_raw [(1, [(10 : ℚ), 20]), (2, [(20 : ℚ)])]
          [(1, (4 : ℚ)), (2, (3 : ℚ))] 1 * 8,
        sMax (scaleStress 3 [(1, [(10 : ℚ), 20]), (2, [(20 : ℚ)])]),
        criticalEid (scaleStress 3 [(1, [(10 : ℚ), 20]), (2, [(20 : ℚ)])])) ∧
    compute_equivalent_volume [(1, [(10 : ℚ), 20]), (2, [(20 : ℚ)])]
        [(1, (4 : ℚ)), (2, (3 : ℚ))] 1 8 =
      .ok (v_eqv_raw [(1, [(10 : ℚ), 20]), (2, [(20 : ℚ)])]
          [(1, (4 : ℚ)), (2, (3 : ℚ))] 1 * 8,
        sMax [(1, [(10 : ℚ), 20]), (2, [(20 : ℚ)])],
        criticalEid [(1, [(10 : ℚ), 20]), (2, [(20 : ℚ)])]) :=
  C6_scale_invariance _ _ _ _ _ exampleValid (by norm_num)

/-! ### The returned maximum and critical element id -/

theorem exists_mem_of_mem_allStresses {stress : List (Nat × List ℚ)} {x : ℚ}
    (hx : x ∈ allStresses stress) : ∃ p ∈ stress, x ∈ p.2 := by
  rcases List.mem_flatten.mp hx with ⟨s, hs, hxs⟩
  rcases List.mem_map.mp hs with ⟨p, hp, rfl⟩
  exact ⟨p, hp, hxs⟩

theorem firstEidWith_spec {stress : List (Nat × List ℚ)} {v : ℚ}
    (h : ∃ p ∈ stress, v ∈ p.2) :
    ∃ q ∈ stress, firstEidWith v stress = q.1 ∧ v ∈ q.2 := by
  induction stress with
  | nil => rcases h with ⟨p, hp, -⟩; cases hp
  | cons p rest ih =>
    by_cases hv : v ∈ p.2
    · exact ⟨p, List.mem_cons_self _ _, by simp [firstEidWith, hv], hv⟩
    · have h' : ∃ q ∈ rest, v ∈ q.2 := by
        rcases h with ⟨q, hq, hvq⟩
        rcases List.mem_cons.mp hq with h0 | h0
        · exact absurd (h0 ▸ hvq) hv
        · exact ⟨q, h0, hvq⟩
      rcases ih h' with ⟨q, hq, heq, hvq⟩
      exact ⟨q, List.mem_cons_of_mem _ hq, by simp [firstEidWith, hv, heq], hvq⟩

/-- C2: on every valid input the computation returns, along with the scalar
result, the global maximum stress `s_max` (an upper bound of every stress value,
itself attained) and the element id at which that maximum occurred. -/
theorem C2_returns_max_and_eid (stress : List (Nat × List ℚ))
    (volume : List (Nat × ℚ)) (m : Nat) (symfac : ℚ)
    (h : ValidInput stress volume m) :
    ∃ v : ℚ, compute_equivalent_volume stress volume m symfac =
        .ok (v, sMax stress, criticalEid stress) ∧
      (∀ x ∈ allStresses stress, x ≤ sMax stress) ∧
      ∃ q ∈ stress, criticalEid stress = q.1 ∧ sMax stress ∈ q.2 := by
  refine ⟨v_eqv_raw stress volume m * symfac, compute_eq_ok symfac h,
    fun x hx => le_sMax hx, ?_⟩
  exact firstEidWith_spec
    (exists_mem_of_mem_allStresses (sMax_mem_of_pos h.smax_pos))

/-- Witness for C2 at the concrete valid input. -/
theorem C2_returns_max_and_eid_witness :
    ∃ v : ℚ, compute_equivalent_volume [(1, [(10 : ℚ), 20]), (2, [(20 : ℚ)])]
        [(1, (4 : ℚ)), (2, (3 : ℚ))] 1 8 =
        .ok (v, sMax [(1, [(10 : ℚ), 20]), (2, [(20 : ℚ)])],
          criticalEid [(1, [(10 : ℚ), 20]), (2, [(20 : ℚ)])]) ∧
      (∀ x ∈ allStresses [(1, [(10 : ℚ), 20]), (2, [(20 : ℚ)])],
        x ≤ sMax [(1, [(10 : ℚ), 20]), (2, [(20 : ℚ)])]) ∧
      ∃ q ∈ [(1, [(10 : ℚ), 20]), (2, [(20 : ℚ)])],
        criticalEid [(1, [(10 : ℚ), 20]), (2, [(20 : ℚ)])] = q.1 ∧
          sMax [(1, [(10 : ℚ), 20]), (2, [(20 : ℚ)])] ∈ q.2 :=
  C2_returns_max_and_eid _ _ _ 8 exampleValid

/-! ### Completion of the notebook computation with stress-only elements -/

theorem npMaxes_ok {l : List (Nat × List ℚ)} (h : ∀ p ∈ l, p.2 ≠ []) :
    ∃ ms : List ℚ, npMaxes l = .ok ms ∧ ms.length = l.length := by
  induction l with
  | nil => exact ⟨[], rfl, rfl⟩
  | cons p rest ih =>
    obtain ⟨ms, hms, hlen⟩ := ih (fun q hq => h q (List.mem_cons_of_mem _ hq))
    obtain ⟨x, xs, hx⟩ := List.exists_cons_of_ne_nil (h p (List.mem_cons_self _ _))
    exact ⟨(xs.foldl max x) :: ms, by simp [npMaxes, np_max, hx, hms], by simp [hlen]⟩

theorem s_mises_max_ok {l : List (Nat × List ℚ)} (hne : l ≠ [])
    (h : ∀ p ∈ l, p.2 ≠ []) : ∃ smax, s_mises_max l = .ok smax := by
  obtain ⟨ms, hms, hlen⟩ := npMaxes_ok h
  cases ms with
  | nil =>
    cases l with
    | nil => exact absurd rfl hne
    | cons a t => simp at hlen
  | cons m0 ms' => exact ⟨ms'.foldl max m0, by simp [s_mises_max, hms]⟩

theorem dictLookup_ok {d : List (Nat × List ℚ)} {k : Nat} (h : k ∈ keysOf d) :
    dictLookup d k = .ok (stressOf d k) := by
  induction d with
  | nil => simp [keysOf] at h
  | cons p rest ih =>
    by_cases hp : p.1 = k
    · simp [dictLookup, stressOf, hp]
    · have h' : k ∈ keysOf rest := by
        rcases List.mem_cons.mp h with h0 | h0
        · exact absurd h0.symm hp
        · exact h0
      simp [dictLookup, stressOf, hp, ih h']

theorem v_eqv_loop_ok (s_mises : List (Nat × List ℚ)) (smax : ℚ)
    (volume : List (Nat × ℚ))
    (hsub : ∀ q ∈ keysOf volume, q ∈ keysOf s_mises) :
    ∀ acc : ℚ, ∃ r, v_eqv_loop s_mises smax volume acc = .ok r := by
  induction volume with
  | nil => exact fun acc => ⟨acc, rfl⟩
  | cons p rest ih =>
    intro acc
    have hk : p.1 ∈ keysOf s_mises :=
      hsub p.1 (List.mem_map_of_mem Prod.fst (List.mem_cons_self _ _))
    have hrest : ∀ q ∈ keysOf rest, q ∈ keysOf s_mises := by
      intro q hq
      exact hsub q (List.mem_cons_of_mem _ hq)
    obtain ⟨r, hr⟩ := ih hrest (acc +
      ((stressOf s_mises p.1).map (fun x => (x / smax) ^ 30 *
        (p.2 / ((stressOf s_mises p.1).length : ℚ)))).sum)
    exact ⟨r, by simp [v_eqv_loop, dictLookup_ok hk, hr]⟩

/-- C10: when the volume mapping's key set is a strict subset of the stress
mapping's key set (and the domain preconditions hold), the notebook computation
completes without raising: stress-only elements contribute no volume term but do
enter the maximum, so adding a stress-only element whose stress exceeds the
previous maximum changes the returned result (here from 32 to 32/2^30). -/
theorem C10_stress_only_elements (s_mises : List (Nat × List ℚ))
    (volume : List (Nat × ℚ)) (hne : s_mises ≠ [])
    (hlists : ∀ p ∈ s_mises, p.2 ≠ [])
    (hsub : ∀ k ∈ keysOf volume, k ∈ keysOf s_mises)
    (hstrict : ∃ k ∈ keysOf s_mises, k ∉ keysOf volume)
    (hnonneg : ∀ p ∈ s_mises, ∀ x ∈ p.2, 0 ≤ x)
    (hvol : ∀ p ∈ volume, 0 < p.2) :
    (∃ q, v_eqv s_mises volume = .ok q) ∧
    v_eqv [(1, [(10 : ℚ)])] [(1, (4 : ℚ))] = .ok 32 ∧
    v_eqv [(1, [(10 : ℚ)]), (2, [(20 : ℚ)])] [(1, (4 : ℚ))] =
      .ok (32 / 2 ^ 30) ∧
    (32 : ℚ) / 2 ^ 30 ≠ 32 := by
  refine ⟨?_, ?_, ?_, by norm_num⟩
  · obtain ⟨smax, hsm⟩ := s_mises_max_ok hne hlists
    obtain ⟨r, hr⟩ := v_eqv_loop_ok s_mises smax volume hsub 0
    exact ⟨r * 8, by simp [v_eqv, hsm, hr]⟩
  · norm_num [v_eqv, s_mises_max, npMaxes, np_max, v_eqv_loop, dictLookup]
  · norm_num [v_eqv, s_mises_max, npMaxes, np_max, v_eqv_loop, dictLookup,
      max_def]

/-- Witness for C10 at the concrete strict-subset input. -/
theorem C10_stress_only_elements_witness :
    (∃ q, v_eqv [(1, [(10 : ℚ)]), (2, [(20 : ℚ)])] [(1, (4 : ℚ))] = .ok q) ∧
    v_eqv [(1, [(10 : ℚ)])] [(1, (4 : ℚ))] = .ok 32 ∧
    v_eqv [(1, [(10 : ℚ)]), (2, [(20 : ℚ)])] [(1, (4 : ℚ))] =
      .ok (32 / 2 ^ 30) ∧
    (32 : ℚ) / 2 ^ 30 ≠ 32 :=
  C10_stress_only_elements [(1, [(10 : ℚ)]), (2, [(20 : ℚ)])] [(1, (4 : ℚ))]
    (by simp)
    (by intro p hp
        rcases List.mem_cons.mp hp with h0 | h0
        · rw [h0]; simp
        · simp only [List.mem_singleton] at h0; rw [h0]; simp)
    (by intro k hk
        simp [keysOf] at hk
        simp [keysOf, hk])
    (⟨2, by simp [keysOf], by simp [keysOf]⟩)
    (by intro p hp x hx
        rcases List.mem_cons.mp hp with h0 | h0
        · rw [h0] at hx; simp only [List.mem_singleton] at hx; rw [hx]; norm_num
        · simp only [List.mem_singleton] at h0; rw [h0] at hx
          simp only [List.mem_singleton] at hx; rw [hx]; norm_num)
    (by intro p hp
        simp only [List.mem_singleton] at hp; rw [hp]; norm_num)

/-! ### The closed formula for the result -/

/-- C1: on every valid input the returned equivalent stressed volume equals the
symmetry factor times the sum, over the (common) element-id set, of
`sum over i of (s_e[i]/s_max)^m * (V_e/n_e)`, where `s_max` is an upper bound of
all stresses and is attained. -/
theorem C1_formula (stress : List (Nat × List ℚ)) (volume : List (Nat × ℚ))
    (m : Nat) (symfac : ℚ) (h : ValidInput stress volume m) :
    compute_equivalent_volume stress volume m symfac =
      .ok (specVeqv stress volume m symfac, sMax stress, criticalEid stress) ∧
    (∀ x ∈ allStresses stress, x ≤ sMax stress) ∧
    sMax stress ∈ allStresses stress := by
  refine ⟨?_, fun x hx => le_sMax hx, sMax_mem_of_pos h.smax_pos⟩
  have hmap : volume.map
      (fun p => elemContrib m (sMax stress) (stressOf stress p.1) p.2) =
      volume.map (fun p =>
        elemContrib m (sMax stress) (stressOf stress p.1) (volOf volume p.1)) := by
    apply List.map_congr_left
    intro p hp
    rw [volOf_eq_of_mem h.volume_nodup hp]
  have hkeys : v_eqv_raw stress volume m =
      ((keysOf volume).map (fun k =>
        elemContrib m (sMax stress) (stressOf stress k) (volOf volume k))).sum := by
    unfold v_eqv_raw
    rw [hmap]
    unfold keysOf
    rw [List.map_map]
    rfl
  have hfin : v_eqv_raw stress volume m =
      (keysOf volume).toFinset.sum (fun k =>
        elemContrib m (sMax stress) (stressOf stress k) (volOf volume k)) := by
    rw [List.sum_toFinset _ h.volume_nodup]
    exact hkeys
  have hset : (keysOf volume).toFinset = (keysOf stress).toFinset := by
    apply Finset.ext
    intro k
    simp only [List.mem_toFinset]
    exact ⟨fun hk => h.keys_eq.2 k hk, fun hk => h.keys_eq.1 k hk⟩
  have hval : v_eqv_raw stress volume m * symfac =
      specVeqv stress volume m symfac := by
    rw [hfin, hset]
    unfold specVeqv
    ring
  rw [compute_eq_ok symfac h, hval]

/-- Witness for C1 at the concrete valid input. -/
theorem C1_formula_witness :
    compute_equivalent_volume [(1, [(10 : ℚ), 20]), (2, [(20 : ℚ)])]
        [(1, (4 : ℚ)), (2, (3 : ℚ))] 1 8 =
      .ok (specVeqv [(1, [(10 : ℚ), 20]), (2, [(20 : ℚ)])]
          [(1, (4 : ℚ)), (2, (3 : ℚ))] 1 8,
        sMax [(1, [(10 : ℚ), 20]), (2, [(20 : ℚ)])],
        criticalEid [(1, [(10 : ℚ), 20]), (2, [(20 : ℚ)])]) ∧
    (∀ x ∈ allStresses [(1, [(10 : ℚ), 20]), (2, [(20 : ℚ)])],
      x ≤ sMax [(1, [(10 : ℚ), 20]), (2, [(20 : ℚ)])]) ∧
    sMax [(1, [(10 : ℚ), 20]), (2, [(20 : ℚ)])] ∈
      allStresses [(1, [(10 : ℚ), 20]), (2, [(20 : ℚ)])] :=
  C1_formula _ _ _ 8 exampleValid

/-! ### The notebook code agrees with the model at modulus 30 and factor 8 -/

theorem le_foldl_max_init (l : List ℚ) (a : ℚ) : a ≤ l.foldl max a := by
  induction l generalizing a with
  | nil => simp
  | cons y t ih => exact le_trans (le_max_left a y) (ih (max a y))

theorem le_foldl_max_mem {l : List ℚ} {x : ℚ} (hx : x ∈ l) (a : ℚ) :
    x ≤ l.foldl max a := by
  induction l generalizing a with
  | nil => cases hx
  | cons y t ih =>
    rcases List.mem_cons.mp hx with h | h
    · subst h
      exact le_trans (le_max_right a x) (le_foldl_max_init t (max a x))
    · exact ih h (max a y)

theorem foldl_max_mem (l : List ℚ) (a : ℚ) : l.foldl max a ∈ a :: l := by
  induction l generalizing a with
  | nil => simp
  | cons y t ih =>
    simp only [List.foldl_cons]
    rcases List.mem_cons.mp (ih (max a y)) with h | h
    · rw [h]
      rcases max_choice a y with h' | h'
      · rw [h']
        exact List.mem_cons_self _ _
      · rw [h']
        exact List.mem_cons_of_mem _ (List.mem_cons_self _ _)
    · exact List.mem_cons_of_mem _ (List.mem_cons_of_mem _ h)

theorem allStresses_cons (p : Nat × List ℚ) (rest : List (Nat × List ℚ)) :
    allStresses (p :: rest) = p.2 ++ allStresses rest := rfl

theorem npMaxes_mem_bound {l : List (Nat × List ℚ)} {ms : List ℚ}
    (h : npMaxes l = .ok ms) :
    (∀ y ∈ ms, y ∈ allStresses l) ∧
    (∀ x ∈ allStresses l, ∃ y ∈ ms, x ≤ y) := by
  induction l generalizing ms with
  | nil =>
    simp only [npMaxes] at h
    cases h
    exact ⟨by simp, by simp [allStresses]⟩
  | cons p rest ih =>
    unfold npMaxes at h
    cases hp2 : p.2 with
    | nil => rw [hp2] at h; simp [np_max] at h
    | cons x xs =>
      rw [hp2] at h
      simp only [np_max] at h
      cases hrest : npMaxes rest with
      | error e => rw [hrest] at h; cases h
      | ok ms' =>
        rw [hrest] at h
        cases h
        obtain ⟨h1, h2⟩ := ih hrest
        constructor
        · intro y hy
          rcases List.mem_cons.mp hy with h0 | h0
          · subst h0
            rw [allStresses_cons, hp2]
            exact List.mem_append_left _ (foldl_max_mem xs x)
          · rw [allStresses_cons]
            exact List.mem_append_right _ (h1 y h0)
        · intro z hz
          rw [allStresses_cons, hp2] at hz
          rcases List.mem_append.mp hz with h0 | h0
          · refine ⟨xs.foldl max x, List.mem_cons_self _ _, ?_⟩
            rcases List.mem_cons.mp h0 with h3 | h3
            · subst h3
              exact le_foldl_max_init xs z
            · exact le_foldl_max_mem h3 x
          · obtain ⟨y, hy, hzy⟩ := h2 z h0
            exact ⟨y, List.mem_cons_of_mem _ hy, hzy⟩

theorem s_mises_max_eq_sMax {l : List (Nat × List ℚ)} (hne : l ≠ [])
    (hlists : ∀ p ∈ l, p.2 ≠ []) (hpos : 0 < sMax l) :
    s_mises_max l = .ok (sMax l) := by
  obtain ⟨ms, hms, hlen⟩ := npMaxes_ok hlists
  obtain ⟨hmem, hbound⟩ := npMaxes_mem_bound hms
  cases ms with
  | nil =>
    cases l with
    | nil => exact absurd rfl hne
    | cons a t => simp at hlen
  | cons m0 ms' =>
    have heq : s_mises_max l = .ok (ms'.foldl max m0) := by
      simp [s_mises_max, hms]
    rw [heq]
    have hle1 : ms'.foldl max m0 ≤ sMax l :=
      le_sMax (hmem _ (foldl_max_mem ms' m0))
    have hle2 : sMax l ≤ ms'.foldl max m0 := by
      obtain ⟨y, hy, hxy⟩ := hbound _ (sMax_mem_of_pos hpos)
      refine le_trans hxy ?_
      rcases List.mem_cons.mp hy with h0 | h0
      · rw [h0]
        exact le_foldl_max_init ms' m0
      · exact le_foldl_max_mem h0 m0
    rw [le_antisymm hle1 hle2]

theorem v_eqv_loop_value (s_mises : List (Nat × List ℚ)) (smax : ℚ)
    (volume : List (Nat × ℚ))
    (hsub : ∀ q ∈ keysOf volume, q ∈ keysOf s_mises) :
    ∀ acc : ℚ, v_eqv_loop s_mises smax volume acc =
      .ok (acc + (volume.map
        (fun p => elemContrib 30 smax (stressOf s_mises p.1) p.2)).sum) := by
  induction volume with
  | nil =>
    intro acc
    simp [v_eqv_loop]
  | cons p rest ih =>
    intro acc
    have hk : p.1 ∈ keysOf s_mises :=
      hsub p.1 (List.mem_map_of_mem Prod.fst (List.mem_cons_self _ _))
    have hrest : ∀ q ∈ keysOf rest, q ∈ keysOf s_mises := by
      intro q hq
      exact hsub q (List.mem_cons_of_mem _ hq)
    simp only [v_eqv_loop, dictLookup_ok hk]
    rw [ih hrest]
    simp only [List.map_cons, List.sum_cons, elemContrib]
    rw [add_assoc]

/-- On every valid matched input, the notebook's inline computation returns
exactly the modelled procedure's scalar result at modulus 30 and symmetry
factor 8: the spec-modelled `compute_equivalent_volume` refines the source. -/
theorem v_eqv_agrees_with_model {stress : List (Nat × List ℚ)}
    {volume : List (Nat × ℚ)} (h : ValidInput stress volume 30) :
    v_eqv stress volume = .ok (v_eqv_raw stress volume 30 * 8) ∧
    compute_equivalent_volume stress volume 30 8 =
      .ok (v_eqv_raw stress volume 30 * 8, sMax stress, criticalEid stress) := by
  refine ⟨?_, compute_eq_ok 8 h⟩
  have hsm := s_mises_max_eq_sMax h.stress_ne h.npts_pos h.smax_pos
  have hloop := v_eqv_loop_value stress (sMax stress) volume h.keys_eq.2 0
  simp [v_eqv, hsm, hloop, v_eqv_raw]
